import Mathlib

/-!
Verification of the `graph` package of `picatz/openai-chat-graph`
(`pkg/graph/chat.go`) against its natural-language specification.

The Go package stores messages as heap objects linked by pointers; following
the spec's own design note ("use an arena of messages addressed by a stable
integer or opaque handle, and key the visited-set by handle"), the traversal
part is embedded over a finite arena of `n` nodes addressed by `Fin n`:
pointer identity in Go becomes handle equality here.  The data-model part
(hydration, serialization, lookup) is embedded over an explicit heap
(`List Message`) with pointers `Option Nat`, where `none` models Go's `nil`
`*Message`.
-/

namespace ChatGraphSpec

/-! ## Traversal model (`Chat.Visit`, `Messages.Visit`, `VisitMessages`)

`chat.go` declares `type Message struct { ...; In Messages; Out Messages }`.
For traversal only the adjacency lists matter, so a graph over an arena of
`n` messages is the pair of adjacency-list maps.  `inEdges` is carried even
though traversal never reads it, so that "in-edges are never followed" is a
statable property. -/

structure ChatGraph (n : Nat) where
  out : Fin n → List (Fin n)
  inEdges : Fin n → List (Fin n)

/-- The state threaded through a single traversal call:

* `visited` embeds the Go `MessageSet` (`map[*Message]struct{}`), keyed by
  node identity;
* `order` is a ghost log recording each invocation of the visitor `fn`, in
  order (in Go the visitor is an effectful closure; the log captures exactly
  the sequence of calls made to it);
* `err` is the error propagating out of the call (`nil` ⇔ `none`). -/
structure VisitSt (n : Nat) (ε : Type) where
  visited : Finset (Fin n)
  order : List (Fin n)
  err : Option ε
deriving DecidableEq

/-- The empty state a `Visit` call starts from (`NewMessageSet()`, no calls
made, no error). -/
def initSt (n : Nat) (ε : Type) : VisitSt n ε := ⟨∅, [], none⟩

/-- Largest out-degree of the arena, used only to size the fuel of the
embedded recursion. -/
def maxOutDeg {n : Nat} (g : ChatGraph n) : Nat :=
  ((List.finRange n).map fun v => (g.out v).length).foldr Nat.max 0

/-- Embedding of `VisitMessages` (chat.go:43-71), lifted over the pending
list of the enclosing `for` loop.  All three loops in the Go source —
`Chat.Visit`'s root loop, `Messages.Visit`'s root loop, and the `out`-edge
loop inside `VisitMessages` — run this same per-element body: skip the
element if already seen, otherwise mark it seen (`mset.Add` happens before
`fn` is called), call `fn`, abort on error, then recurse into the element's
`out` list before continuing with the remaining pending elements.

The Go recursion terminates because the visited set only grows inside a
finite arena; Lean's structural recursion is obtained with a `fuel`
parameter.  The `fuel = 0` branch is dead code for the canonical fuel used
by `Visit` (theorem `visitList_fuel_irrelevant` below shows any fuel at
least `visitNeeded pending s` gives the same result). -/
def visitList {n : Nat} {ε : Type} (g : ChatGraph n) (fn : Fin n → Option ε) :
    Nat → List (Fin n) → VisitSt n ε → VisitSt n ε
  | 0, _, s => s
  | _ + 1, [], s => s
  | fuel + 1, node :: rest, s =>
    if s.err.isSome then s
    else if node ∈ s.visited then
      visitList g fn fuel rest s
    else
      let s1 : VisitSt n ε := ⟨insert node s.visited, s.order ++ [node], s.err⟩
      match fn node with
      | some e => { s1 with err := some e }
      | none =>
        let s2 := visitList g fn fuel (g.out node) s1
        visitList g fn fuel rest s2

/-- Fuel that always suffices for `visitList pending s` (proved below):
one unit per pending element plus, for every still-unvisited arena node,
one unit for processing it and one per out-edge it may enqueue. -/
def visitNeeded {n : Nat} {ε : Type} (g : ChatGraph n) (pending : List (Fin n))
    (s : VisitSt n ε) : Nat :=
  pending.length + (n - s.visited.card) * (maxOutDeg g + 1)

/-- Embedding of both `Chat.Visit` (chat.go:24-38) and `Messages.Visit`
(chat.go:400-414): the two Go functions have identical bodies (fresh
`MessageSet`, then the root loop), differing only in whether the root
collection comes from a `Chat` or stands alone. -/
def Visit {n : Nat} {ε : Type} (g : ChatGraph n) (roots : List (Fin n))
    (fn : Fin n → Option ε) : VisitSt n ε :=
  visitList g fn (visitNeeded g roots (initSt n ε)) roots (initSt n ε)

/-- Reachability from the root collection following `out`-edges only, the
notion of "reachable" used throughout the spec's traversal guarantees. -/
inductive Reach {n : Nat} (g : ChatGraph n) (roots : List (Fin n)) : Fin n → Prop
  | root {x : Fin n} : x ∈ roots → Reach g roots x
  | step {x y : Fin n} : Reach g roots x → y ∈ g.out x → Reach g roots y

/-! ### Unfolding lemmas for `visitList` -/

theorem visitList_err_stop {n : Nat} {ε : Type} (g : ChatGraph n) (fn : Fin n → Option ε)
    (f : Nat) (p : List (Fin n)) (s : VisitSt n ε) (h : s.err.isSome) :
    visitList g fn f p s = s := by
  cases f with
  | zero => rfl
  | succ f =>
    cases p with
    | nil => rfl
    | cons x rest => simp [visitList, h]

theorem visitList_cons_mem {n : Nat} {ε : Type} (g : ChatGraph n) (fn : Fin n → Option ε)
    (f : Nat) (x : Fin n) (rest : List (Fin n)) (s : VisitSt n ε)
    (herr : s.err = none) (hmem : x ∈ s.visited) :
    visitList g fn (f + 1) (x :: rest) s = visitList g fn f rest s := by
  simp [visitList, herr, hmem]

theorem visitList_cons_fail {n : Nat} {ε : Type} (g : ChatGraph n) (fn : Fin n → Option ε)
    (f : Nat) (x : Fin n) (rest : List (Fin n)) (s : VisitSt n ε) (e : ε)
    (herr : s.err = none) (hmem : x ∉ s.visited) (hfn : fn x = some e) :
    visitList g fn (f + 1) (x :: rest) s =
      ⟨insert x s.visited, s.order ++ [x], some e⟩ := by
  simp [visitList, herr, hmem, hfn]

theorem visitList_cons_ok {n : Nat} {ε : Type} (g : ChatGraph n) (fn : Fin n → Option ε)
    (f : Nat) (x : Fin n) (rest : List (Fin n)) (s : VisitSt n ε)
    (herr : s.err = none) (hmem : x ∉ s.visited) (hfn : fn x = none) :
    visitList g fn (f + 1) (x :: rest) s =
      visitList g fn f rest
        (visitList g fn f (g.out x) ⟨insert x s.visited, s.order ++ [x], none⟩) := by
  simp [visitList, herr, hmem, hfn]

/-! ### Invariants of the traversal -/

/-- The visited set only grows (Go: `mset.Add` is the only mutation). -/
theorem visitList_visited_mono {n : Nat} {ε : Type} (g : ChatGraph n)
    (fn : Fin n → Option ε) :
    ∀ (f : Nat) (p : List (Fin n)) (s : VisitSt n ε),
      s.visited ⊆ (visitList g fn f p s).visited := by
  intro f
  induction f with
  | zero => intro p s; exact Finset.Subset.refl _
  | succ f ih =>
    intro p s
    cases p with
    | nil => exact Finset.Subset.refl _
    | cons x rest =>
      cases herr : s.err with
      | some e =>
        rw [visitList_err_stop g fn _ _ s (by simp [herr])]
      | none =>
        by_cases hmem : x ∈ s.visited
        · rw [visitList_cons_mem g fn f x rest s herr hmem]
          exact ih rest s
        · cases hfn : fn x with
          | some e =>
            rw [visitList_cons_fail g fn f x rest s e herr hmem hfn]
            exact Finset.subset_insert x s.visited
          | none =>
            rw [visitList_cons_ok g fn f x rest s herr hmem hfn]
            exact (Finset.subset_insert x s.visited).trans
              ((ih (g.out x) ⟨insert x s.visited, s.order ++ [x], none⟩).trans (ih rest _))

/-- A visitor that never fails never sets the error (Go: the only error
source inside `VisitMessages` is `fn`'s return value). -/
theorem visitList_err_of_none {n : Nat} {ε : Type} (g : ChatGraph n)
    (fn : Fin n → Option ε) (hfn : ∀ x, fn x = none) :
    ∀ (f : Nat) (p : List (Fin n)) (s : VisitSt n ε),
      (visitList g fn f p s).err = s.err := by
  intro f
  induction f with
  | zero => intro p s; rfl
  | succ f ih =>
    intro p s
    cases p with
    | nil => rfl
    | cons x rest =>
      cases herr : s.err with
      | some e =>
        rw [visitList_err_stop g fn _ _ s (by simp [herr])]
        exact herr
      | none =>
        by_cases hmem : x ∈ s.visited
        · rw [visitList_cons_mem g fn f x rest s herr hmem, ih rest s, herr]
        · rw [visitList_cons_ok g fn f x rest s herr hmem (hfn x), ih rest _,
            ih (g.out x) _]

/-- Invariant relating the call log to the visited set: the log never
repeats a node, and logs exactly the visited nodes. -/
def OrderInv {n : Nat} {ε : Type} (s : VisitSt n ε) : Prop :=
  s.order.Nodup ∧ ∀ x, x ∈ s.order ↔ x ∈ s.visited

theorem visitList_orderInv {n : Nat} {ε : Type} (g : ChatGraph n)
    (fn : Fin n → Option ε) :
    ∀ (f : Nat) (p : List (Fin n)) (s : VisitSt n ε),
      OrderInv s → OrderInv (visitList g fn f p s) := by
  intro f
  induction f with
  | zero => intro p s h; exact h
  | succ f ih =>
    intro p s h
    cases p with
    | nil => exact h
    | cons x rest =>
      cases herr : s.err with
      | some e => rw [visitList_err_stop g fn _ _ s (by simp [herr])]; exact h
      | none =>
        by_cases hmem : x ∈ s.visited
        · rw [visitList_cons_mem g fn f x rest s herr hmem]; exact ih rest s h
        · have hxo : x ∉ s.order := fun hx => hmem ((h.2 x).mp hx)
          have h1 : OrderInv (⟨insert x s.visited, s.order ++ [x], none⟩ : VisitSt n ε) := by
            constructor
            · simp only [List.nodup_append, List.nodup_singleton, true_and]
              exact ⟨h.1, by simp [List.disjoint_singleton, hxo]⟩
            · intro y
              simp only [List.mem_append, List.mem_singleton, Finset.mem_insert, h.2 y]
              tauto
          cases hfn : fn x with
          | some e =>
            rw [visitList_cons_fail g fn f x rest s e herr hmem hfn]
            exact ⟨h1.1, h1.2⟩
          | none =>
            rw [visitList_cons_ok g fn f x rest s herr hmem hfn]
            exact ih rest _ (ih (g.out x) _ h1)

/-- Every node the traversal marks visited is reachable from the root
collection, provided the pending nodes and the already-visited nodes are. -/
theorem visitList_sound {n : Nat} {ε : Type} (g : ChatGraph n)
    (fn : Fin n → Option ε) (roots : List (Fin n)) :
    ∀ (f : Nat) (p : List (Fin n)) (s : VisitSt n ε),
      (∀ x ∈ p, Reach g roots x) → (∀ v ∈ s.visited, Reach g roots v) →
      ∀ v ∈ (visitList g fn f p s).visited, Reach g roots v := by
  intro f
  induction f with
  | zero => intro p s _ hv; exact hv
  | succ f ih =>
    intro p s hp hv
    cases p with
    | nil => exact hv
    | cons x rest =>
      cases herr : s.err with
      | some e => rw [visitList_err_stop g fn _ _ s (by simp [herr])]; exact hv
      | none =>
        by_cases hmem : x ∈ s.visited
        · rw [visitList_cons_mem g fn f x rest s herr hmem]
          exact ih rest s (fun y hy => hp y (List.mem_cons_of_mem x hy)) hv
        · have hx : Reach g roots x := hp x (List.mem_cons_self x rest)
          have hv1 : ∀ v ∈ insert x s.visited, Reach g roots v := by
            intro v hvmem
            rcases Finset.mem_insert.mp hvmem with h | h
            · exact h ▸ hx
            · exact hv v h
          cases hfn : fn x with
          | some e =>
            rw [visitList_cons_fail g fn f x rest s e herr hmem hfn]
            exact hv1
          | none =>
            rw [visitList_cons_ok g fn f x rest s herr hmem hfn]
            exact ih rest _ (fun y hy => hp y (List.mem_cons_of_mem x hy))
              (ih (g.out x) _ (fun y hy => Reach.step hx hy) hv1)

/-- Fail-fast invariant: while no error has occurred every logged node
succeeded; once an error occurs, the log ends at the failing node, the
error is that node's exact error value, and every earlier node succeeded. -/
def FailInv {n : Nat} {ε : Type} (fn : Fin n → Option ε) (s : VisitSt n ε) : Prop :=
  (s.err = none → ∀ y ∈ s.order, fn y = none) ∧
  (∀ e, s.err = some e →
    ∃ pre x, s.order = pre ++ [x] ∧ fn x = some e ∧ ∀ y ∈ pre, fn y = none)

theorem visitList_failInv {n : Nat} {ε : Type} (g : ChatGraph n)
    (fn : Fin n → Option ε) :
    ∀ (f : Nat) (p : List (Fin n)) (s : VisitSt n ε),
      FailInv fn s → FailInv fn (visitList g fn f p s) := by
  intro f
  induction f with
  | zero => intro p s h; exact h
  | succ f ih =>
    intro p s h
    cases p with
    | nil => exact h
    | cons x rest =>
      cases herr : s.err with
      | some e => rw [visitList_err_stop g fn _ _ s (by simp [herr])]; exact h
      | none =>
        have hnone : ∀ y ∈ s.order, fn y = none := h.1 herr
        by_cases hmem : x ∈ s.visited
        · rw [visitList_cons_mem g fn f x rest s herr hmem]; exact ih rest s h
        · cases hfn : fn x with
          | some e =>
            rw [visitList_cons_fail g fn f x rest s e herr hmem hfn]
            refine ⟨fun habs => absurd habs (by simp), ?_⟩
            intro e' he'
            obtain rfl : e = e' := by simpa using he'
            exact ⟨s.order, x, rfl, hfn, hnone⟩
          | none =>
            rw [visitList_cons_ok g fn f x rest s herr hmem hfn]
            refine ih rest _ (ih (g.out x) _ ?_)
            refine ⟨fun _ y hy => ?_, fun e' he' => absurd he' (by simp)⟩
            rcases List.mem_append.mp hy with hy | hy
            · exact hnone y hy
            · rw [List.mem_singleton.mp hy]; exact hfn

/-! ### Fuel arithmetic -/

theorem le_foldr_max (l : List Nat) (a : Nat) (h : a ∈ l) :
    a ≤ l.foldr Nat.max 0 := by
  induction l with
  | nil => cases h
  | cons b t ih =>
    rcases List.mem_cons.mp h with h | h
    · exact h ▸ Nat.le_max_left b (t.foldr Nat.max 0)
    · exact (ih h).trans (Nat.le_max_right b (t.foldr Nat.max 0))

theorem out_length_le_maxOutDeg {n : Nat} (g : ChatGraph n) (v : Fin n) :
    (g.out v).length ≤ maxOutDeg g := by
  apply le_foldr_max
  exact List.mem_map_of_mem _ (List.mem_finRange v)

theorem visited_card_lt {n : Nat} {ε : Type} {s : VisitSt n ε} {x : Fin n}
    (hmem : x ∉ s.visited) : s.visited.card < n := by
  have h1 : (insert x s.visited).card = s.visited.card + 1 :=
    Finset.card_insert_of_not_mem hmem
  have h2 : (insert x s.visited).card ≤ n := by
    simpa using Finset.card_le_univ (insert x s.visited)
  omega

/-- The fuel bookkeeping for one expansion step: from enough fuel for
`x :: rest` at a state with `c` visited nodes, there is enough fuel left
both for `x`'s out-edges (with `c + 1` nodes visited) and, afterwards, for
`rest` at any state with at least `c + 1` visited nodes. -/
theorem fuel_arith {n : Nat} (g : ChatGraph n) (x : Fin n) (c L f : Nat)
    (hc : c < n) (h : L + 1 + (n - c) * (maxOutDeg g + 1) ≤ f + 1) :
    ((g.out x).length + (n - (c + 1)) * (maxOutDeg g + 1) ≤ f) ∧
    (∀ c2, c + 1 ≤ c2 → L + (n - c2) * (maxOutDeg g + 1) ≤ f) := by
  have hout : (g.out x).length ≤ maxOutDeg g := out_length_le_maxOutDeg g x
  have hA : (n - (c + 1)) * (maxOutDeg g + 1) =
      (n - c) * (maxOutDeg g + 1) - 1 * (maxOutDeg g + 1) := by
    rw [← Nat.sub_mul]
    rfl
  have hB : maxOutDeg g + 1 ≤ (n - c) * (maxOutDeg g + 1) :=
    Nat.le_mul_of_pos_left _ (by omega)
  refine ⟨by omega, ?_⟩
  intro c2 hc2
  have hmul : (n - c2) * (maxOutDeg g + 1) ≤ (n - (c + 1)) * (maxOutDeg g + 1) :=
    Nat.mul_le_mul_right _ (by omega)
  omega

/-- Any two fuels at least `visitNeeded` give the same traversal result: the
fuel parameter is an artifact of the embedding, not of the Go algorithm. -/
theorem visitList_fuel_irrelevant {n : Nat} {ε : Type} (g : ChatGraph n)
    (fn : Fin n → Option ε) :
    ∀ (f1 f2 : Nat) (p : List (Fin n)) (s : VisitSt n ε),
      visitNeeded g p s ≤ f1 → visitNeeded g p s ≤ f2 →
      visitList g fn f1 p s = visitList g fn f2 p s := by
  intro f1
  induction f1 with
  | zero =>
    intro f2 p s h1 h2
    have hp : p = [] := by
      cases p with
      | nil => rfl
      | cons x rest => simp [visitNeeded] at h1
    subst hp
    cases f2 with
    | zero => rfl
    | succ f2 => rfl
  | succ f1 ih =>
    intro f2 p s h1 h2
    cases p with
    | nil =>
      cases f2 with
      | zero => rfl
      | succ f2 => rfl
    | cons x rest =>
      have hf2 : ∃ f2', f2 = f2' + 1 := by
        cases f2 with
        | zero => simp [visitNeeded] at h2
        | succ f2' => exact ⟨f2', rfl⟩
      obtain ⟨f2', rfl⟩ := hf2
      cases herr : s.err with
      | some e =>
        rw [visitList_err_stop g fn _ _ s (by simp [herr]),
          visitList_err_stop g fn _ _ s (by simp [herr])]
      | none =>
        simp only [visitNeeded, List.length_cons] at h1 h2
        by_cases hmem : x ∈ s.visited
        · rw [visitList_cons_mem g fn f1 x rest s herr hmem,
            visitList_cons_mem g fn f2' x rest s herr hmem]
          exact ih f2' rest s (by simp [visitNeeded]; omega)
            (by simp [visitNeeded]; omega)
        · cases hfn : fn x with
          | some e =>
            rw [visitList_cons_fail g fn f1 x rest s e herr hmem hfn,
              visitList_cons_fail g fn f2' x rest s e herr hmem hfn]
          | none =>
            rw [visitList_cons_ok g fn f1 x rest s herr hmem hfn,
              visitList_cons_ok g fn f2' x rest s herr hmem hfn]
            have hcard : s.visited.card < n := visited_card_lt hmem
            have ha1 := fuel_arith g x s.visited.card rest.length f1 hcard (by omega)
            have ha2 := fuel_arith g x s.visited.card rest.length f2' hcard (by omega)
            set s1 : VisitSt n ε := ⟨insert x s.visited, s.order ++ [x], none⟩ with hs1
            have hc1 : s1.visited.card = s.visited.card + 1 := by
              rw [hs1]
              exact Finset.card_insert_of_not_mem hmem
            have heq2 : visitList g fn f1 (g.out x) s1 = visitList g fn f2' (g.out x) s1 :=
              ih f2' (g.out x) s1 (by simp only [visitNeeded, hc1]; exact ha1.1)
                (by simp only [visitNeeded, hc1]; exact ha2.1)
            rw [heq2]
            set s2 := visitList g fn f2' (g.out x) s1 with hs2
            have hc2 : s1.visited.card ≤ s2.visited.card :=
              Finset.card_le_card (visitList_visited_mono g fn f2' (g.out x) s1)
            exact ih f2' rest s2
              (by simp only [visitNeeded]; exact ha1.2 s2.visited.card (by omega))
              (by simp only [visitNeeded]; exact ha2.2 s2.visited.card (by omega))

/-- DFS completeness invariant, for a never-failing visitor and enough fuel:
every pending node ends up visited, and every node that becomes visited
during the call has its entire `out` list visited by the end of the call. -/
theorem visitList_complete {n : Nat} {ε : Type} (g : ChatGraph n)
    (fn : Fin n → Option ε) (hfn : ∀ x, fn x = none) :
    ∀ (f : Nat) (p : List (Fin n)) (s : VisitSt n ε),
      s.err = none → visitNeeded g p s ≤ f →
      (∀ x ∈ p, x ∈ (visitList g fn f p s).visited) ∧
      (∀ v ∈ (visitList g fn f p s).visited,
        v ∈ s.visited ∨ ∀ w ∈ g.out v, w ∈ (visitList g fn f p s).visited) := by
  intro f
  induction f with
  | zero =>
    intro p s herr hneed
    have hp : p = [] := by
      cases p with
      | nil => rfl
      | cons x rest => simp [visitNeeded] at hneed
    subst hp
    exact ⟨fun x hx => absurd hx (List.not_mem_nil x), fun v hv => Or.inl hv⟩
  | succ f ih =>
    intro p s herr hneed
    cases p with
    | nil => exact ⟨fun x hx => absurd hx (List.not_mem_nil x), fun v hv => Or.inl hv⟩
    | cons x rest =>
      simp only [visitNeeded, List.length_cons] at hneed
      by_cases hmem : x ∈ s.visited
      · rw [visitList_cons_mem g fn f x rest s herr hmem]
        have hrec := ih rest s herr (by simp only [visitNeeded]; omega)
        refine ⟨?_, hrec.2⟩
        intro y hy
        rcases List.mem_cons.mp hy with hy | hy
        · exact hy ▸ visitList_visited_mono g fn f rest s hmem
        · exact hrec.1 y hy
      · rw [visitList_cons_ok g fn f x rest s herr hmem (hfn x)]
        have hcard : s.visited.card < n := visited_card_lt hmem
        have ha := fuel_arith g x s.visited.card rest.length f hcard (by omega)
        set s1 : VisitSt n ε := ⟨insert x s.visited, s.order ++ [x], none⟩ with hs1
        have hc1 : s1.visited.card = s.visited.card + 1 := by
          rw [hs1]
          exact Finset.card_insert_of_not_mem hmem
        have hrec1 := ih (g.out x) s1 rfl (by simp only [visitNeeded, hc1]; exact ha.1)
        set s2 := visitList g fn f (g.out x) s1 with hs2
        have herr2 : s2.err = none := by
          rw [hs2, visitList_err_of_none g fn hfn]
        have hc2 : s1.visited.card ≤ s2.visited.card :=
          Finset.card_le_card (visitList_visited_mono g fn f (g.out x) s1)
        have hrec2 := ih rest s2 herr2
          (by simp only [visitNeeded]; exact ha.2 s2.visited.card (by omega))
        set s3 := visitList g fn f rest s2 with hs3
        have hmono23 : s2.visited ⊆ s3.visited :=
          visitList_visited_mono g fn f rest s2
        have hmono12 : s1.visited ⊆ s2.visited :=
          visitList_visited_mono g fn f (g.out x) s1
        constructor
        · intro y hy
          rcases List.mem_cons.mp hy with hy | hy
          · exact hy ▸ hmono23 (hmono12 (Finset.mem_insert_self x s.visited))
          · exact hrec2.1 y hy
        · intro v hv
          rcases hrec2.2 v hv with hv2 | hclosed
          · rcases hrec1.2 v hv2 with hv1 | hclosed1
            · rcases Finset.mem_insert.mp hv1 with hvx | hvs
              · subst hvx
                exact Or.inr fun w hw => hmono23 (hrec1.1 w hw)
              · exact Or.inl hvs
            · exact Or.inr fun w hw => hmono23 (hclosed1 w hw)
          · exact Or.inr hclosed

/-- The traversal only reads the `out` adjacency lists: in-edges are never
followed. -/
theorem visitList_indep_inEdges {n : Nat} {ε : Type}
    (outE in1 in2 : Fin n → List (Fin n)) (fn : Fin n → Option ε) :
    ∀ (f : Nat) (p : List (Fin n)) (s : VisitSt n ε),
      visitList ⟨outE, in1⟩ fn f p s = visitList ⟨outE, in2⟩ fn f p s := by
  intro f
  induction f with
  | zero => intro p s; rfl
  | succ f ih =>
    intro p s
    cases p with
    | nil => rfl
    | cons x rest =>
      cases herr : s.err with
      | some e =>
        rw [visitList_err_stop _ fn _ _ s (by simp [herr]),
          visitList_err_stop _ fn _ _ s (by simp [herr])]
      | none =>
        by_cases hmem : x ∈ s.visited
        · rw [visitList_cons_mem _ fn f x rest s herr hmem,
            visitList_cons_mem _ fn f x rest s herr hmem]
          exact ih rest s
        · cases hfn : fn x with
          | some e =>
            rw [visitList_cons_fail _ fn f x rest s e herr hmem hfn,
              visitList_cons_fail _ fn f x rest s e herr hmem hfn]
          | none =>
            rw [visitList_cons_ok _ fn f x rest s herr hmem hfn,
              visitList_cons_ok _ fn f x rest s herr hmem hfn]
            show visitList _ fn f rest (visitList _ fn f (outE x) _) = _
            rw [ih (outE x) _, ih rest _]

/-! ### Concrete example graphs used by the spec's own test cases -/

/-- Linear chain A→B→C→D (nodes 0→1→2→3), rooted at 0. -/
def chainG : ChatGraph 4 :=
  ⟨fun v => [[1], [2], [3], []].getD v.val [], fun v => [[], [0], [1], [2]].getD v.val []⟩

/-- Branching graph 0→{1,2}, 1→3, with the corresponding in-edges. -/
def branchG : ChatGraph 4 :=
  ⟨fun v => [[1, 2], [3], [], []].getD v.val [], fun v => [[], [0], [0], [1]].getD v.val []⟩

/-- Two-node cycle A→B→A (0→1→0). -/
def cycG : ChatGraph 2 :=
  ⟨fun v => [[1], [0]].getD v.val [], fun v => [[1], [0]].getD v.val []⟩

/-- A visitor that always succeeds (returns `nil` in Go). -/
def noneVisitor (n : Nat) : Fin n → Option Unit := fun _ => none

/-- A visitor failing exactly on the second chain node (node 1), with error
value `7`. -/
def failSecond : Fin 4 → Option Nat := fun v => if v.val = 1 then some 7 else none

/-! ### Claim theorems: traversal -/

/-- C1: for every chat graph and every visitor, `Visit` (the shared body
of `Chat.Visit` and `Messages.Visit`) never invokes the visitor twice on
the same message (by identity) in one call — and when the visitor never
fails it is invoked exactly once per distinct message reachable from the
root collection via out-edges, no matter how many roots, parallel edges,
shared sub-paths, or cycles lead to a message. -/
theorem Visit_once_per_reachable {n : Nat} {ε : Type} (g : ChatGraph n)
    (roots : List (Fin n)) (fn : Fin n → Option ε) :
    (Visit g roots fn).order.Nodup ∧
    ((∀ x, fn x = none) →
      ∀ x, x ∈ (Visit g roots fn).order ↔ Reach g roots x) := by
  have hinv0 : OrderInv (initSt n ε) := by
    constructor
    · exact List.nodup_nil
    · intro x
      simp [initSt]
  have hinv : OrderInv (Visit g roots fn) :=
    visitList_orderInv g fn _ roots (initSt n ε) hinv0
  refine ⟨hinv.1, fun hfn x => ?_⟩
  rw [hinv.2 x]
  constructor
  · intro hx
    refine visitList_sound g fn roots _ roots (initSt n ε)
      (fun y hy => Reach.root hy) ?_ x hx
    intro v hv
    simp [initSt] at hv
  · intro hr
    have hcomp := visitList_complete g fn hfn (visitNeeded g roots (initSt n ε))
      roots (initSt n ε) rfl (Nat.le_refl _)
    induction hr with
    | root h => exact hcomp.1 _ h
    | @step a b hra hb ih =>
      rcases hcomp.2 a ih with ha | hcl
      · simp [initSt] at ha
      · exact hcl b hb

/-- Witness for C1 at the branching example graph with the never-failing
visitor. -/
theorem Visit_once_per_reachable_witness :
    (∀ x : Fin 4, noneVisitor 4 x = none) ∧
    ((Visit branchG [0] (noneVisitor 4)).order.Nodup ∧
      ∀ x, x ∈ (Visit branchG [0] (noneVisitor 4)).order ↔ Reach branchG [0] x) :=
  ⟨fun _ => rfl,
    (Visit_once_per_reachable branchG [0] (noneVisitor 4)).1,
    (Visit_once_per_reachable branchG [0] (noneVisitor 4)).2 (fun _ => rfl)⟩

/-- C2: if the visitor returns an error on some node during `Visit`, that
exact error value is returned to the caller and no node is visited after
the failing one (the call log ends at the failing node, all earlier nodes
succeeded); concretely, on the 4-node chain with a visitor failing on the
2nd node with error `7`, only nodes 0 and 1 are visited and the error `7`
comes back — nodes 2 and 3 are never passed to the visitor. -/
theorem Visit_fail_fast :
    (∀ (n : Nat) (ε : Type) (g : ChatGraph n) (roots : List (Fin n))
        (fn : Fin n → Option ε) (e : ε),
      (Visit g roots fn).err = some e →
      ∃ (pre : List (Fin n)) (x : Fin n),
        (Visit g roots fn).order = pre ++ [x] ∧ fn x = some e ∧
        ∀ y ∈ pre, fn y = none) ∧
    ((Visit chainG [0] failSecond).order = [0, 1] ∧
      (Visit chainG [0] failSecond).err = some 7) := by
  constructor
  · intro n ε g roots fn e herr
    have hinv : FailInv fn (Visit g roots fn) := by
      refine visitList_failInv g fn _ roots (initSt n ε) ?_
      exact ⟨fun _ y hy => absurd hy (List.not_mem_nil y),
        fun e' habs => absurd habs (by simp [initSt])⟩
    exact hinv.2 e herr
  · exact ⟨by decide, by decide⟩

/-- Witness for C2 at the 4-node chain with the visitor failing on node 1. -/
theorem Visit_fail_fast_witness :
    ((Visit chainG [0] failSecond).err = some 7) ∧
    (∃ pre x, (Visit chainG [0] failSecond).order = pre ++ [x] ∧
      failSecond x = some 7 ∧ ∀ y ∈ pre, failSecond y = none) :=
  ⟨by decide, Visit_fail_fast.1 4 Nat chainG [0] failSecond 7 (by decide)⟩

/-- C3: `Visit` is a deterministic pre-order depth-first traversal that
follows only out-edges in their list order and never follows in-edges: the
result is unchanged under any change to the in-edge lists, and on the
linear chain 0→1→2→3 rooted at 0 the visitor is invoked in exactly the
order 0, 1, 2, 3 (the branching graph 0→{1,2}, 1→3 shows the depth-first
order 0, 1, 3, 2). -/
theorem Visit_preorder_deterministic :
    (∀ (n : Nat) (ε : Type) (outE in1 in2 : Fin n → List (Fin n))
        (roots : List (Fin n)) (fn : Fin n → Option ε),
      Visit ⟨outE, in1⟩ roots fn = Visit ⟨outE, in2⟩ roots fn) ∧
    (Visit chainG [0] (noneVisitor 4)).order = [0, 1, 2, 3] ∧
    (Visit branchG [0] (noneVisitor 4)).order = [0, 1, 3, 2] := by
  refine ⟨?_, by decide, by decide⟩
  intro n ε outE in1 in2 roots fn
  show visitList _ fn (visitNeeded ⟨outE, in1⟩ roots (initSt n ε)) roots _ = _
  have hdeg : maxOutDeg (⟨outE, in1⟩ : ChatGraph n) = maxOutDeg ⟨outE, in2⟩ := rfl
  rw [visitList_indep_inEdges outE in1 in2 fn, visitNeeded, hdeg]
  rfl

/-- C4: `Visit` terminates on every finite graph, cyclic ones included —
formally, the embedding's result is already stable at the canonical fuel,
so granting the recursion any additional budget changes nothing — and on
the 2-node cycle 0→1→0 rooted at 0 it terminates visiting nodes 0 and 1
exactly once each. -/
theorem Visit_terminates_on_cycles :
    (∀ (n : Nat) (ε : Type) (g : ChatGraph n) (roots : List (Fin n))
        (fn : Fin n → Option ε) (extra : Nat),
      visitList g fn (visitNeeded g roots (initSt n ε) + extra) roots (initSt n ε) =
        Visit g roots fn) ∧
    ((Visit cycG [0] (noneVisitor 2)).order = [0, 1] ∧
      (Visit cycG [0] (noneVisitor 2)).order.count 0 = 1 ∧
      (Visit cycG [0] (noneVisitor 2)).order.count 1 = 1 ∧
      (Visit cycG [0] (noneVisitor 2)).err = none) := by
  refine ⟨?_, by decide, by decide, by decide, by decide⟩
  intro n ε g roots fn extra
  exact visitList_fuel_irrelevant g fn _ _ roots (initSt n ε)
    (Nat.le_add_right _ extra) (Nat.le_refl _)

/-! ## Data model (`Message`, `Messages`, `Chat`) with an explicit heap

The Go side stores `Message` values on the heap and links them with
`*Message` pointers (`Messages = []*Message`), which may be `nil`.  The
embedding makes the heap explicit: a heap is a `List Message`, a pointer is
`Option Nat` (`none` models Go's `nil`), and a `Messages` value is a list
of pointers. -/

/-- A Go `*Message`: an index into the heap, or `nil`. -/
abbrev Ptr := Option Nat

/-- Embedding of `Message` (chat.go:89-110): `ID` plus the embedded
`openai.ChatMessage`'s `Role` and `Content`, and the `In`/`Out` adjacency
lists of message pointers. -/
structure Message where
  ID : String
  Role : String
  Content : String
  In : List Ptr
  Out : List Ptr
deriving DecidableEq, Inhabited

/-- Pointer dereference.  Dereferencing `none` models a Go `nil`-pointer
dereference (a panic); the `default` value only arises on inputs that
already contain `nil`, which the Go code would crash on. -/
def deref (h : List Message) (p : Ptr) : Message :=
  match p with
  | some i => h.getD i default
  | none => default

/-- Embedding of `Chat` (chat.go:15-19): id, name, and the flat root
collection of message pointers. -/
structure Chat where
  ID : String
  Name : String
  Messages : List Ptr
deriving DecidableEq

/-- Embedding of `Messages.IDs` (chat.go:224-230): the ordered ids of a
pointer collection. -/
def Messages.IDs (h : List Message) (msgs : List Ptr) : List String :=
  msgs.map fun p => (deref h p).ID

/-- Embedding of `Chat.GetMessages` (chat.go:267-277).  Note the Go body:

    msgs := make(Messages, len(ids))        // len(ids) nil pointers
    for _, msg := range graph.Messages {
        for _, id := range ids {
            if msg.ID == id { msgs = append(msgs, msg) }
        }
    }

`make` with a length (not a capacity) pre-fills the slice with `len(ids)`
nil pointers, and `append` adds the matches after them. -/
def Chat.GetMessages (h : List Message) (c : Chat) (ids : List String) : List Ptr :=
  c.Messages.foldl
    (fun acc p =>
      ids.foldl (fun acc2 id => if (deref h p).ID = id then acc2 ++ [p] else acc2) acc)
    (List.replicate ids.length none)

/-- The matched part of `Chat.GetMessages`: for each flat-collection
message in order, one occurrence per id it matches. -/
def matchedPtrs (h : List Message) (c : Chat) (ids : List String) : List Ptr :=
  c.Messages.flatMap fun p => (ids.filter fun id => (deref h p).ID = id).map fun _ => p

/-- Embedding of `Messages.Hydrate` (chat.go:244-249): for each message of
the collection in order, replace its `In` list by
`graph.GetMessages(msg.In.IDs()...)` and then its `Out` list by
`graph.GetMessages(msg.Out.IDs()...)`, mutating the heap as Go does.  A
`nil` entry in the collection is left alone (Go would panic reading
`msg.In`; the claims' inputs have no `nil` at the top level). -/
def Messages.Hydrate (msgs : List Ptr) (c : Chat) (h : List Message) : List Message :=
  msgs.foldl
    (fun h p =>
      match p with
      | none => h
      | some i =>
        let m := h.getD i default
        let h1 := h.set i { m with In := Chat.GetMessages h c (Messages.IDs h m.In) }
        let m1 := h1.getD i default
        h1.set i { m1 with Out := Chat.GetMessages h1 c (Messages.IDs h1 m1.Out) })
    h

/-- The per-in-node check of `Messages.Hydrated` (chat.go:252-264), with
the Go control flow: `if in.ID == "" { return false }` then
`if in.Content == "" && in.Role == "" { return false }`. -/
def hydratedCheck (m : Message) : Bool :=
  if m.ID = "" then false
  else if m.Content = "" ∧ m.Role = "" then false
  else true

/-- Embedding of `Messages.Hydrated` (chat.go:252-264): true when every
node in every message's `In` list passes the check; `Out` lists are never
inspected. -/
def Messages.Hydrated (h : List Message) (msgs : List Ptr) : Bool :=
  msgs.all fun p => (deref h p).In.all fun q => hydratedCheck (deref h q)

/-- The spec's notion of a stub node: "a node with an id but empty role
and content". -/
def IsStub (m : Message) : Prop := m.ID ≠ "" ∧ m.Role = "" ∧ m.Content = ""

instance : DecidablePred IsStub := fun m => by unfold IsStub; infer_instance

/-! ### Serialization (`Message.MarshalJSON` / `Message.UnmarshalJSON`) -/

/-- Embedding of `Message.MarshalJSON` (chat.go:115-128) at the string
level: the exact `fmt.Sprintf` format, with the `in`/`out` id lists
emitted by `strings.Join(ids, ",")` — without quotes around the ids. -/
def Message.MarshalJSON (h : List Message) (p : Ptr) : String :=
  "\x7b\"id\":\"" ++ (deref h p).ID ++ "\",\"role\":\"" ++ (deref h p).Role ++
  "\",\"content\":\"" ++ (deref h p).Content ++ "\",\"in\":[" ++
  String.intercalate "," (Messages.IDs h (deref h p).In) ++ "],\"out\":[" ++
  String.intercalate "," (Messages.IDs h (deref h p).Out) ++ "]\x7d"

/-- The field content of one serialized message: id, role, content, and the
edge id lists.  This abstracts the JSON text of chat.go:115-165 to its
field structure (see `Message.MarshalJSON` for the text itself). -/
structure SerMessage where
  id : String
  role : String
  content : String
  inIDs : List String
  outIDs : List String
deriving DecidableEq

/-- Serialize one message the way `Message.MarshalJSON` does: own fields
plus the `In`/`Out` id lists. -/
def marshalMessage (h : List Message) (p : Ptr) : SerMessage :=
  ⟨(deref h p).ID, (deref h p).Role, (deref h p).Content,
    Messages.IDs h (deref h p).In, Messages.IDs h (deref h p).Out⟩

/-- Embedding of `Message.UnmarshalJSON` (chat.go:135-165): set the own
fields and allocate a fresh stub `&Message{ID: id}` for every `in`/`out`
id.  Returns the extended heap and the handle of the new message. -/
def unmarshalMessage (h : List Message) (s : SerMessage) : List Message × Nat :=
  let inPtrs : List Ptr := (List.range s.inIDs.length).map fun k => some (h.length + k)
  let h1 := h ++ s.inIDs.map fun id => ⟨id, "", "", [], []⟩
  let outPtrs : List Ptr := (List.range s.outIDs.length).map fun k => some (h1.length + k)
  let h2 := h1 ++ s.outIDs.map fun id => ⟨id, "", "", [], []⟩
  (h2 ++ [⟨s.id, s.role, s.content, inPtrs, outPtrs⟩], h2.length)

/-- The serialized form of a whole `Chat` (chat.go:15-19 json tags):
`{id, name, messages}` with each message in the id-only edge form. -/
structure SerChat where
  id : String
  name : String
  messages : List SerMessage
deriving DecidableEq

def marshalChat (h : List Message) (c : Chat) : SerChat :=
  ⟨c.ID, c.Name, c.Messages.map (marshalMessage h)⟩

def unmarshalChat (sc : SerChat) : Chat × List Message :=
  let hp := sc.messages.foldl
    (fun (acc : List Message × List Ptr) sm =>
      let next := unmarshalMessage acc.1 sm
      (next.1, acc.2 ++ [some next.2]))
    ([], [])
  (⟨sc.id, sc.name, hp.2⟩, hp.1)

/-! ### Characterization of `Chat.GetMessages` -/

theorem foldl_ids_step (h : List Message) (p : Ptr) (ids : List String) :
    ∀ acc : List Ptr,
      ids.foldl (fun acc2 id => if (deref h p).ID = id then acc2 ++ [p] else acc2) acc =
      acc ++ (ids.filter fun id => (deref h p).ID = id).map (fun _ => p) := by
  induction ids with
  | nil => intro acc; simp
  | cons i t ih =>
    intro acc
    rw [List.foldl_cons]
    by_cases hi : (deref h p).ID = i
    · rw [if_pos hi, ih]
      have hf : List.filter (fun id => decide ((deref h p).ID = id)) (i :: t) =
          i :: List.filter (fun id => decide ((deref h p).ID = id)) t := by
        rw [List.filter_cons, if_pos (by simp [hi])]
      rw [hf]
      simp
    · rw [if_neg hi, ih]
      have hf : List.filter (fun id => decide ((deref h p).ID = id)) (i :: t) =
          List.filter (fun id => decide ((deref h p).ID = id)) t := by
        rw [List.filter_cons, if_neg (by simp [hi])]
      rw [hf]

theorem foldl_msgs_step (h : List Message) (ids : List String) :
    ∀ (msgs : List Ptr) (acc : List Ptr),
      msgs.foldl
        (fun acc p =>
          ids.foldl (fun acc2 id => if (deref h p).ID = id then acc2 ++ [p] else acc2) acc)
        acc =
      acc ++ msgs.flatMap (fun p => (ids.filter fun id => (deref h p).ID = id).map fun _ => p) := by
  intro msgs
  induction msgs with
  | nil => intro acc; simp
  | cons p t ih =>
    intro acc
    rw [List.foldl_cons, foldl_ids_step, ih, List.flatMap_cons, List.append_assoc]

theorem getMessages_eq (h : List Message) (c : Chat) (ids : List String) :
    Chat.GetMessages h c ids = List.replicate ids.length none ++ matchedPtrs h c ids := by
  unfold Chat.GetMessages matchedPtrs
  exact foldl_msgs_step h ids c.Messages (List.replicate ids.length none)

/-! ### Concrete inputs exercising hydration and the round trip -/

/-- A fully hydrated two-message chat: message "1" points out to message
"2", message "2" points in to message "1"; all roles and contents
populated, all edge pointers aimed at the flat collection itself. -/
def heapRT : List Message :=
  [⟨"1", "user", "hi", [], [some 1]⟩, ⟨"2", "assistant", "yo", [some 0], []⟩]

def chatRT : Chat := ⟨"c1", "test", [some 0, some 1]⟩

/-- The chat and heap produced by serializing `chatRT` and deserializing
it into a fresh heap. -/
def rtChatHeap : Chat × List Message := unmarshalChat (marshalChat heapRT chatRT)

/-- The heap after hydrating the deserialized chat against its own flat
collection (`Chat.HydrateMessages`, chat.go:295-297). -/
def rtHydrated : List Message :=
  Messages.Hydrate rtChatHeap.1.Messages rtChatHeap.1 rtChatHeap.2

/-- Two messages where the first's `In` list points at the second, which
has an empty `ID` but populated role and content — not a stub in the
spec's sense. -/
def heapC9 : List Message :=
  [⟨"1", "user", "hi", [some 1], []⟩, ⟨"", "user", "sup", [], []⟩]

/-! ### Claim theorems: data model -/

/-- C6 (code evaluated at the failing input): marshalling the hydrated
two-message chat, unmarshalling it, and hydrating it against its flat
collection does not reproduce an edge structure isomorphic by ID.  The
first message's out list, originally one pointer with id list `["2"]`,
comes back as two pointers — a `nil` followed by the match — with id list
`["", "2"]`; moreover `MarshalJSON` emits the edge id lists unquoted
(`"in":[1]`), which is not even well-formed JSON for an id list. -/
theorem roundTrip_hydrate_breaks_edges :
    Messages.IDs heapRT (deref heapRT (some 0)).Out = ["2"] ∧
    Messages.IDs rtHydrated (deref rtHydrated (rtChatHeap.1.Messages.getD 0 none)).Out =
      ["", "2"] ∧
    none ∈ (deref rtHydrated (rtChatHeap.1.Messages.getD 0 none)).Out ∧
    Message.MarshalJSON heapRT (some 1) =
      "\x7b\"id\":\"2\",\"role\":\"assistant\",\"content\":\"yo\",\"in\":[1],\"out\":[]\x7d" := by
  refine ⟨by decide, by decide, by decide, by decide⟩

/-- C7 (code evaluated at the failing input): `chatRT`/`heapRT` is already
fully hydrated (its `In`/`Out` lists reference the fully-populated
messages of the flat collection), yet `Messages.Hydrate` is not a no-op on
it: message "1"'s out list goes from `[some 1]` to `[none, some 1]` — a
nil pointer is prepended — because `GetMessages` pre-fills one nil slot
per requested id. -/
theorem hydrate_changes_hydrated_input :
    Messages.Hydrated heapRT chatRT.Messages = true ∧
    (deref heapRT (some 0)).Out = [some 1] ∧
    (deref (Messages.Hydrate chatRT.Messages chatRT heapRT) (some 0)).Out = [none, some 1] ∧
    Messages.Hydrate chatRT.Messages chatRT heapRT ≠ heapRT := by
  refine ⟨by decide, by decide, by decide, by decide⟩

/-- C9 counterexample: a collection whose single message's `In` list holds
a node with empty `ID` but populated role and content — not a stub — is
nevertheless reported un-hydrated, so `Hydrated` is not equivalent to
"no stub node remains in any in list". -/
theorem hydrated_claim_counterexample :
    ¬ (Messages.Hydrated heapC9 [some 0] = true ↔
        ∀ p ∈ ([some 0] : List Ptr), ∀ q ∈ (deref heapC9 p).In,
          ¬ IsStub (deref heapC9 q)) := by
  decide

/-- C9 (amended): `Messages.Hydrated` returns true iff every node in any
message's `in` list has a nonempty id and is not blank (content and role
not both empty); `out` lists play no part in the verdict (changing only
the `Out` fields of the heap never changes the result). -/
theorem hydrated_iff_amended :
    (∀ (h : List Message) (msgs : List Ptr),
      Messages.Hydrated h msgs = true ↔
        ∀ p ∈ msgs, ∀ q ∈ (deref h p).In,
          (deref h q).ID ≠ "" ∧ ¬((deref h q).Content = "" ∧ (deref h q).Role = "")) ∧
    (∀ (h h' : List Message) (msgs : List Ptr),
      h.length = h'.length →
      (∀ i, i < h.length →
        (h.getD i default).ID = (h'.getD i default).ID ∧
        (h.getD i default).Role = (h'.getD i default).Role ∧
        (h.getD i default).Content = (h'.getD i default).Content ∧
        (h.getD i default).In = (h'.getD i default).In) →
      Messages.Hydrated h msgs = Messages.Hydrated h' msgs) := by
  have hcheck : ∀ m : Message,
      hydratedCheck m = true ↔ (m.ID ≠ "" ∧ ¬(m.Content = "" ∧ m.Role = "")) := by
    intro m
    by_cases h1 : m.ID = "" <;> by_cases h2 : m.Content = "" ∧ m.Role = "" <;>
      simp [hydratedCheck, h1, h2]
  have hiff : ∀ (h : List Message) (msgs : List Ptr),
      Messages.Hydrated h msgs = true ↔
        ∀ p ∈ msgs, ∀ q ∈ (deref h p).In,
          (deref h q).ID ≠ "" ∧ ¬((deref h q).Content = "" ∧ (deref h q).Role = "") := by
    intro h msgs
    unfold Messages.Hydrated
    simp only [List.all_eq_true, hcheck]
  refine ⟨hiff, ?_⟩
  intro h h' msgs hlen hfields
  have hderef : ∀ p : Ptr,
      (deref h p).ID = (deref h' p).ID ∧
      (deref h p).Role = (deref h' p).Role ∧
      (deref h p).Content = (deref h' p).Content ∧
      (deref h p).In = (deref h' p).In := by
    intro p
    cases p with
    | none => exact ⟨rfl, rfl, rfl, rfl⟩
    | some i =>
      by_cases hi : i < h.length
      · exact hfields i hi
      · have h1 : h.getD i default = default := List.getD_eq_default _ _ (by omega)
        have h2 : h'.getD i default = default := List.getD_eq_default _ _ (by omega)
        have e1 : deref h (some i) = deref h' (some i) := by
          show h.getD i default = h'.getD i default
          rw [h1, h2]
        rw [e1]
        exact ⟨rfl, rfl, rfl, rfl⟩
  have h1 := hiff h msgs
  have h2 := hiff h' msgs
  have hsame : (∀ p ∈ msgs, ∀ q ∈ (deref h p).In,
      (deref h q).ID ≠ "" ∧ ¬((deref h q).Content = "" ∧ (deref h q).Role = "")) ↔
      (∀ p ∈ msgs, ∀ q ∈ (deref h' p).In,
        (deref h' q).ID ≠ "" ∧ ¬((deref h' q).Content = "" ∧ (deref h' q).Role = "")) := by
    apply forall₂_congr
    intro p _
    rw [(hderef p).2.2.2]
    apply forall₂_congr
    intro q _
    rw [(hderef q).1, (hderef q).2.1, (hderef q).2.2.1]
  cases hh : Messages.Hydrated h msgs <;> cases hh' : Messages.Hydrated h' msgs
  · rfl
  · exact absurd (h1.mpr (hsame.mpr (h2.mp hh'))) (by simp [hh])
  · exact absurd (h2.mpr (hsame.mp (h1.mp hh))) (by simp [hh'])
  · rfl

/-- Witness for C9's amended theorem: `heapC9` against a copy of itself
that differs only in the `Out` fields. -/
theorem hydrated_iff_amended_witness :
    ((Messages.Hydrated heapC9 [some 0] = true ↔
        ∀ p ∈ ([some 0] : List Ptr), ∀ q ∈ (deref heapC9 p).In,
          (deref heapC9 q).ID ≠ "" ∧
          ¬((deref heapC9 q).Content = "" ∧ (deref heapC9 q).Role = "")) ∧
      Messages.Hydrated heapC9 [some 0] =
        Messages.Hydrated
          [⟨"1", "user", "hi", [some 1], [some 0, none]⟩, ⟨"", "user", "sup", [], [some 5]⟩]
          [some 0]) :=
  ⟨hydrated_iff_amended.1 heapC9 [some 0],
    hydrated_iff_amended.2 heapC9
      [⟨"1", "user", "hi", [some 1], [some 0, none]⟩, ⟨"", "user", "sup", [], [some 5]⟩]
      [some 0] (by decide) (by decide)⟩

/-- C10: `Chat.GetMessages` returns `len(ids)` nil pointers followed by
the matches — one occurrence per (message, id) pair with equal id, in the
flat collection's order — so its length is `len(ids)` plus the number of
matching pairs, its first `len(ids)` elements are nil, and for a non-empty
id list the result is never just the matched messages. -/
theorem getMessages_spec :
    (∀ (h : List Message) (c : Chat) (ids : List String),
      Chat.GetMessages h c ids = List.replicate ids.length none ++ matchedPtrs h c ids) ∧
    (∀ (h : List Message) (c : Chat) (ids : List String),
      (Chat.GetMessages h c ids).length = ids.length + (matchedPtrs h c ids).length) ∧
    (∀ (h : List Message) (c : Chat) (ids : List String),
      (Chat.GetMessages h c ids).take ids.length = List.replicate ids.length none) ∧
    (∀ (h : List Message) (c : Chat) (ids : List String),
      ids ≠ [] → Chat.GetMessages h c ids ≠ matchedPtrs h c ids) := by
  refine ⟨getMessages_eq, ?_, ?_, ?_⟩
  · intro h c ids
    rw [getMessages_eq]
    simp
  · intro h c ids
    rw [getMessages_eq, List.take_append_of_le_length (by simp)]
    simp [List.take_replicate]
  · intro h c ids hne heq
    have hlen : (Chat.GetMessages h c ids).length =
        ids.length + (matchedPtrs h c ids).length := by
      rw [getMessages_eq]
      simp
    rw [heq] at hlen
    have : ids.length = 0 := by omega
    exact hne (List.length_eq_zero.mp this)

/-- Witness for C10 at the concrete two-message chat with the id list
`["2"]`: one nil slot followed by the single match. -/
theorem getMessages_spec_witness :
    ((["2"] : List String) ≠ []) ∧
    Chat.GetMessages heapRT chatRT ["2"] ≠ matchedPtrs heapRT chatRT ["2"] :=
  ⟨by decide, getMessages_spec.2.2.2 heapRT chatRT ["2"] (by decide)⟩

/-! ## Search (`Messages.Search`, chat.go:315-343)

The Go code compiles the query with the external matcher
`golang.org/x/text/search` (`language.AmericanEnglish`, `IgnoreCase`) and
asks it for the first match span in each message's content; that library is
not part of this repository.  The search loop itself — one result per
matching message, in input order, carrying the message, its input index and
the first match span — is repository code and is embedded faithfully below
over an abstractable matcher. -/

/-- Modelled from the spec: the case folding of the external matcher
(`search.IgnoreCase`), "a query in any case matches content containing the
same word in a different case".  ASCII case folding; the locale-specific
diacritic folding of the external collator is out of scope. -/
def foldCase (c : Char) : Char := c.toLower

/-- Modelled from the spec: case-insensitive "starts with". -/
def prefixCI : List Char → List Char → Bool
  | [], _ => true
  | _ :: _, [] => false
  | q :: qs, c :: cs => (foldCase q == foldCase c) && prefixCI qs cs

/-- Modelled from the spec: the compiled pattern's first-match scan
(`pattern.IndexString`), returning "the character offsets of the first
match only": the least position where the case-folded query is a prefix,
with the match end one query-length further. -/
def indexFromCI (q : List Char) : List Char → Nat → Option (Nat × Nat)
  | [], i => if prefixCI q [] then some (i, i + q.length) else none
  | c :: rest, i =>
    if prefixCI q (c :: rest) then some (i, i + q.length)
    else indexFromCI q rest (i + 1)

/-- Modelled from the spec: `pattern.IndexString` over whole strings;
`none` models Go's `(-1, -1)` "no match". -/
def IndexString (q s : String) : Option (Nat × Nat) := indexFromCI q.data s.data 0

/-- Embedding of `SearchResult` (chat.go:300-312). -/
structure SearchResult where
  Message : Message
  MessageIndex : Nat
  StartIndex : Nat
  EndIndex : Nat
deriving DecidableEq

/-- The search loop of `Messages.Search` (chat.go:326-339), carrying the
running input index `i`. -/
def searchFrom (q : String) : List Message → Nat → List SearchResult
  | [], _ => []
  | m :: rest, i =>
    match IndexString q m.Content with
    | some (a, b) => ⟨m, i, a, b⟩ :: searchFrom q rest (i + 1)
    | none => searchFrom q rest (i + 1)

/-- Embedding of `Messages.Search` (chat.go:315-343). -/
def Messages.Search (msgs : List Message) (q : String) : List SearchResult :=
  searchFrom q msgs 0

/-! ### Characterization of the search loop -/

theorem searchFrom_mem (q : String) :
    ∀ (msgs : List Message) (i0 : Nat) (r : SearchResult),
      r ∈ searchFrom q msgs i0 →
      i0 ≤ r.MessageIndex ∧ r.MessageIndex - i0 < msgs.length ∧
      r.Message = msgs.getD (r.MessageIndex - i0) default ∧
      IndexString q r.Message.Content = some (r.StartIndex, r.EndIndex) := by
  intro msgs
  induction msgs with
  | nil => intro i0 r hr; cases hr
  | cons m rest ih =>
    intro i0 r hr
    rw [searchFrom] at hr
    cases hidx : IndexString q m.Content with
    | some ab =>
      rw [hidx] at hr
      rcases ab with ⟨a, b⟩
      rcases List.mem_cons.mp hr with hr | hr
      · subst hr
        exact ⟨Nat.le_refl _, by simp, by simp, by simpa using hidx⟩
      · have h := ih (i0 + 1) r hr
        refine ⟨by omega, by simp; omega, ?_, h.2.2.2⟩
        have hd : r.MessageIndex - i0 = (r.MessageIndex - (i0 + 1)) + 1 := by omega
        rw [hd]
        simpa using h.2.2.1
    | none =>
      rw [hidx] at hr
      have h := ih (i0 + 1) r hr
      refine ⟨by omega, by simp; omega, ?_, h.2.2.2⟩
      have hd : r.MessageIndex - i0 = (r.MessageIndex - (i0 + 1)) + 1 := by omega
      rw [hd]
      simpa using h.2.2.1

theorem searchFrom_indices (q : String) :
    ∀ (msgs : List Message) (i0 : Nat),
      (searchFrom q msgs i0).map (fun r => r.MessageIndex) =
        ((List.enumFrom i0 msgs).filter fun pr =>
          (IndexString q pr.2.Content).isSome).map Prod.fst := by
  intro msgs
  induction msgs with
  | nil => intro i0; rfl
  | cons m rest ih =>
    intro i0
    rw [searchFrom, List.enumFrom_cons]
    cases hidx : IndexString q m.Content with
    | some ab =>
      rcases ab with ⟨a, b⟩
      rw [List.filter_cons, if_pos (by simp [hidx])]
      simp only [List.map_cons]
      rw [ih]
    | none =>
      rw [List.filter_cons, if_neg (by simp [hidx])]
      exact ih (i0 + 1)

theorem searchFrom_covers (q : String) :
    ∀ (msgs : List Message) (i0 k : Nat),
      k < msgs.length →
      (IndexString q ((msgs.getD k default).Content)).isSome →
      (i0 + k) ∈ (searchFrom q msgs i0).map (fun r => r.MessageIndex) := by
  intro msgs
  induction msgs with
  | nil => intro i0 k hk; simp at hk
  | cons m rest ih =>
    intro i0 k hk hsome
    rw [searchFrom]
    cases k with
    | zero =>
      cases hidx : IndexString q m.Content with
      | some ab =>
        rcases ab with ⟨a, b⟩
        simp
      | none => simp [hidx] at hsome
    | succ k =>
      have hmem := ih (i0 + 1) k (by simpa using hk) (by simpa using hsome)
      have harith : i0 + (k + 1) = (i0 + 1) + k := by omega
      cases hidx : IndexString q m.Content with
      | some ab =>
        rcases ab with ⟨a, b⟩
        simp only [List.map_cons, List.mem_cons]
        rw [harith]
        exact Or.inr hmem
      | none => rw [harith]; exact hmem

/-- First-match correctness of the modelled scanner: a returned span
starts at the least matching position and ends one query-length later. -/
theorem indexFromCI_first (q : List Char) :
    ∀ (s : List Char) (i a b : Nat),
      indexFromCI q s i = some (a, b) →
      i ≤ a ∧ b = a + q.length ∧ prefixCI q (s.drop (a - i)) = true ∧
      ∀ j, j < a - i → prefixCI q (s.drop j) = false := by
  intro s
  induction s with
  | nil =>
    intro i a b h
    rw [indexFromCI] at h
    by_cases hp : prefixCI q []
    · rw [if_pos hp, Option.some.injEq, Prod.mk.injEq] at h
      obtain ⟨rfl, rfl⟩ := h
      exact ⟨Nat.le_refl _, rfl, by simpa using hp, fun j hj => absurd hj (by omega)⟩
    · rw [if_neg hp] at h
      cases h
  | cons c rest ih =>
    intro i a b h
    rw [indexFromCI] at h
    by_cases hp : prefixCI q (c :: rest)
    · rw [if_pos hp, Option.some.injEq, Prod.mk.injEq] at h
      obtain ⟨rfl, rfl⟩ := h
      exact ⟨Nat.le_refl _, rfl, by simpa using hp, fun j hj => absurd hj (by omega)⟩
    · rw [if_neg hp] at h
      have hrec := ih (i + 1) a b h
      refine ⟨by omega, hrec.2.1, ?_, ?_⟩
      · have hd : a - i = (a - (i + 1)) + 1 := by omega
        rw [hd]
        simpa using hrec.2.2.1
      · intro j hj
        cases j with
        | zero => simpa using hp
        | succ j =>
          have : j < a - (i + 1) := by omega
          simpa using hrec.2.2.2 j this

/-- The modelled scanner finds a match exactly when the case-folded query
occurs as a substring. -/
theorem indexFromCI_isSome (q : List Char) :
    ∀ (s : List Char) (i : Nat),
      (indexFromCI q s i).isSome = true ↔ ∃ j, prefixCI q (s.drop j) = true := by
  intro s
  induction s with
  | nil =>
    intro i
    rw [indexFromCI]
    by_cases hp : prefixCI q []
    · simp [hp]
    · simp [hp]
  | cons c rest ih =>
    intro i
    rw [indexFromCI]
    by_cases hp : prefixCI q (c :: rest)
    · simp only [if_pos hp, Option.isSome_some, true_iff]
      exact ⟨0, by simpa using hp⟩
    · rw [if_neg hp]
      rw [ih (i + 1)]
      constructor
      · rintro ⟨j, hj⟩
        exact ⟨j + 1, by simpa using hj⟩
      · rintro ⟨j, hj⟩
        cases j with
        | zero => exact absurd (by simpa using hj) hp
        | succ j => exact ⟨j, by simpa using hj⟩

/-- The message of the repository's own search test
(`TestChatMessagesSearch`). -/
def helloMsg : Message := ⟨"message-1", "user", "Hello World!", [], []⟩

/-- C5: `Messages.Search` returns exactly one `SearchResult` per message
whose content contains the query case-insensitively, in input order: the
returned `MessageIndex` list is exactly the index list of the enumerated
input filtered to the matching messages — so it lists the matching input
positions in increasing input order, repeats no index, and contains an
input position iff that message's content matches; each result carries
the message at its `MessageIndex` in the input collection and the span of
the first match only (least matching offset, end one query-length later);
a message with no match contributes no result.  Concretely, searching
`["Hello World!"]` for `"world"` returns the single result with
`MessageIndex 0` and span `[6, 11)`. -/
theorem Search_spec :
    (∀ (msgs : List Message) (q : String) (r : SearchResult),
      r ∈ Messages.Search msgs q →
      r.MessageIndex < msgs.length ∧
      r.Message = msgs.getD r.MessageIndex default ∧
      IndexString q r.Message.Content = some (r.StartIndex, r.EndIndex)) ∧
    (∀ (msgs : List Message) (q : String),
      (Messages.Search msgs q).map (fun r => r.MessageIndex) =
        ((List.enumFrom 0 msgs).filter fun pr =>
          (IndexString q pr.2.Content).isSome).map Prod.fst) ∧
    (∀ (msgs : List Message) (q : String),
      ((Messages.Search msgs q).map fun r => r.MessageIndex).Nodup) ∧
    (∀ (msgs : List Message) (q : String) (i : Nat), i < msgs.length →
      ((IndexString q ((msgs.getD i default).Content)).isSome = true ↔
        i ∈ (Messages.Search msgs q).map fun r => r.MessageIndex)) ∧
    (∀ (q s : List Char) (a b : Nat),
      indexFromCI q s 0 = some (a, b) →
      b = a + q.length ∧ prefixCI q (s.drop a) = true ∧
      ∀ j, j < a → prefixCI q (s.drop j) = false) ∧
    (∀ (q s : List Char),
      (indexFromCI q s 0).isSome = true ↔ ∃ j, prefixCI q (s.drop j) = true) ∧
    (Messages.Search [helloMsg] "world" = [⟨helloMsg, 0, 6, 11⟩]) := by
  have hmem : ∀ (msgs : List Message) (q : String) (r : SearchResult),
      r ∈ Messages.Search msgs q →
      r.MessageIndex < msgs.length ∧
      r.Message = msgs.getD r.MessageIndex default ∧
      IndexString q r.Message.Content = some (r.StartIndex, r.EndIndex) := by
    intro msgs q r hr
    have h := searchFrom_mem q msgs 0 r hr
    exact ⟨by omega, by simpa using h.2.2.1, h.2.2.2⟩
  refine ⟨hmem, ?_, ?_, ?_, ?_, ?_, ?_⟩
  · intro msgs q
    exact searchFrom_indices q msgs 0
  · intro msgs q
    have heq := searchFrom_indices q msgs 0
    show ((searchFrom q msgs 0).map fun r => r.MessageIndex).Nodup
    rw [heq]
    have hsub : ((List.enumFrom 0 msgs).filter fun pr =>
        (IndexString q pr.2.Content).isSome).Sublist (List.enumFrom 0 msgs) :=
      List.filter_sublist _
    have hmap := hsub.map Prod.fst
    rw [List.enumFrom_map_fst] at hmap
    exact hmap.nodup (by simp [List.nodup_range'])
  · intro msgs q i hi
    constructor
    · intro hsome
      have := searchFrom_covers q msgs 0 i hi hsome
      simpa using this
    · intro hmemi
      rcases List.mem_map.mp hmemi with ⟨r, hr, hidx⟩
      have h := hmem msgs q r hr
      rw [← hidx, ← h.2.1, h.2.2]
      rfl
  · intro q s a b h
    have := indexFromCI_first q s 0 a b h
    exact ⟨this.2.1, by simpa using this.2.2.1, fun j hj => this.2.2.2 j (by omega)⟩
  · intro q s
    exact indexFromCI_isSome q s 0
  · decide

/-- Witness for C5: the matching direction of the per-index equivalence at
the repository's own test input. -/
theorem Search_spec_witness :
    (0 < ([helloMsg] : List Message).length) ∧
    ((IndexString "world" ((([helloMsg] : List Message).getD 0 default).Content)).isSome = true ↔
      0 ∈ (Messages.Search [helloMsg] "world").map fun r => r.MessageIndex) :=
  ⟨by decide, Search_spec.2.2.2.1 [helloMsg] "world" 0 (by decide)⟩

/-! ## Summarization (`Messages.Summarize` / `SummarizeWithSystemPrompt`,
chat.go:354-395)

The external collaborator (`openai.Client.CreateChat`) is not part of this
repository; it is modelled from the spec as an abstract function from a
completion request to a response or an error.  The request construction,
transcript assembly, error wrapping, and result extraction are repository
code, embedded below. -/

def ChatRoleSystem : String := "system"

def ChatRoleUser : String := "user"

/-- Modelled from the spec: one role-tagged text entry of a completion
request (`openai.ChatMessage`'s fields as used by this repository). -/
structure ChatMessage where
  Role : String
  Content : String
deriving DecidableEq, Inhabited

/-- Modelled from the spec: the completion request (model identifier plus
the ordered entries). -/
structure CreateChatRequest where
  Model : String
  Messages : List ChatMessage
deriving DecidableEq

/-- Modelled from the spec: one completion choice of the response. -/
structure ChatChoice where
  Message : ChatMessage
deriving DecidableEq, Inhabited

/-- Modelled from the spec: the completion response. -/
structure CreateChatResponse where
  Choices : List ChatChoice
deriving DecidableEq

/-- The error returned by summarization on collaborator failure:
`fmt.Errorf("failed to create summary of %d chat messages: %w", len(msgs), err)`
wraps the collaborator's error together with the message count. -/
structure SummaryError (E : Type) where
  count : Nat
  wrapped : E
deriving DecidableEq

/-- The transcript builder of chat.go:369-380: one line `"<role>: <content>\n"`
per message in input order, skipping messages whose role is "system". -/
def transcriptOf (msgs : List Message) : String :=
  msgs.foldl
    (fun b m => if m.Role = ChatRoleSystem then b else b ++ m.Role ++ ": " ++ m.Content ++ "\n")
    ""

/-- Embedding of `Messages.SummarizeWithSystemPrompt` (chat.go:360-395),
with the collaborator as an abstract `client` function.  The Go function
returns `(string, error)`; here the error position is
`Option (SummaryError E)`.  On success Go reads `summary.Choices[0]` —
indexing that would panic on an empty choice list, modelled with the
default element. -/
def Messages.SummarizeWithSystemPrompt {E : Type}
    (client : CreateChatRequest → Except E CreateChatResponse)
    (model : String) (summarySystemPrompt : String) (msgs : List Message) :
    String × Option (SummaryError E) :=
  match client ⟨model, [⟨ChatRoleSystem, summarySystemPrompt⟩,
      ⟨ChatRoleUser, transcriptOf msgs⟩]⟩ with
  | .error e => ("", some ⟨msgs.length, e⟩)
  | .ok summary => ((summary.Choices.getD 0 default).Message.Content, none)

/-- Embedding of `DefaultSummaryPrompt` (chat.go:346-352). -/
def DefaultSummaryPrompt : String :=
  "You are an expert at summarization that answers as concisely as possible. " ++
  "Provide a summary of the given conversation, including all the key information " ++
  "(e.g. people, places, events, things, etc) to continue on the conversation. " ++
  "Do not include any unnecessary information, or a prefix in the output."

/-- Embedding of `Messages.Summarize` (chat.go:355-357). -/
def Messages.Summarize {E : Type}
    (client : CreateChatRequest → Except E CreateChatResponse)
    (model : String) (msgs : List Message) : String × Option (SummaryError E) :=
  Messages.SummarizeWithSystemPrompt client model DefaultSummaryPrompt msgs

theorem join_nil : String.join [] = "" := by
  apply String.ext
  simp

theorem join_cons (s : String) (l : List String) :
    String.join (s :: l) = s ++ String.join l := by
  apply String.ext
  simp

theorem transcriptOf_foldl (msgs : List Message) :
    ∀ b : String,
      msgs.foldl
        (fun b m =>
          if m.Role = ChatRoleSystem then b else b ++ m.Role ++ ": " ++ m.Content ++ "\n")
        b =
      b ++ String.join ((msgs.filter fun m => m.Role ≠ ChatRoleSystem).map
        fun m => m.Role ++ ": " ++ m.Content ++ "\n") := by
  induction msgs with
  | nil =>
    intro b
    rw [List.foldl_nil, List.filter_nil, List.map_nil, join_nil]
    apply String.ext
    simp
  | cons m rest ih =>
    intro b
    rw [List.foldl_cons]
    by_cases hm : m.Role = ChatRoleSystem
    · rw [if_pos hm, ih]
      have hf : (m :: rest).filter (fun m => decide (m.Role ≠ ChatRoleSystem)) =
          rest.filter (fun m => decide (m.Role ≠ ChatRoleSystem)) := by
        rw [List.filter_cons, if_neg (by simp [hm])]
      rw [hf]
    · rw [if_neg hm, ih]
      have hf : (m :: rest).filter (fun m => decide (m.Role ≠ ChatRoleSystem)) =
          m :: rest.filter (fun m => decide (m.Role ≠ ChatRoleSystem)) := by
        rw [List.filter_cons, if_pos (by simp [hm])]
      rw [hf, List.map_cons, join_cons]
      apply String.ext
      simp

/-- Messages used to exercise the transcript: a system message sits
between two plain ones and must be skipped. -/
def summMsgs : List Message :=
  [⟨"m1", "user", "Hi", [], []⟩, ⟨"m2", "system", "X", [], []⟩,
    ⟨"m3", "assistant", "Yo", [], []⟩]

/-- C8: `Summarize`/`SummarizeWithSystemPrompt` builds the user-entry
transcript with exactly one line `"<role>: <content>\n"` per message in
input order, omitting every message whose role is "system"; sends a
two-entry request — entry 1 the instruction prompt with role system,
entry 2 the transcript with role user; on success returns the first
completion choice's text content, and on collaborator failure returns the
empty string together with an error wrapping the collaborator's exact
error annotated with the count of messages being summarized. -/
theorem Summarize_spec :
    (∀ msgs : List Message,
      transcriptOf msgs =
        String.join ((msgs.filter fun m => m.Role ≠ ChatRoleSystem).map
          fun m => m.Role ++ ": " ++ m.Content ++ "\n")) ∧
    (∀ (E : Type) (client : CreateChatRequest → Except E CreateChatResponse)
        (model sys : String) (msgs : List Message) (resp : CreateChatResponse),
      client ⟨model, [⟨ChatRoleSystem, sys⟩, ⟨ChatRoleUser, transcriptOf msgs⟩]⟩ =
          Except.ok resp →
      Messages.SummarizeWithSystemPrompt client model sys msgs =
        ((resp.Choices.getD 0 default).Message.Content, none)) ∧
    (∀ (E : Type) (client : CreateChatRequest → Except E CreateChatResponse)
        (model sys : String) (msgs : List Message) (e : E),
      client ⟨model, [⟨ChatRoleSystem, sys⟩, ⟨ChatRoleUser, transcriptOf msgs⟩]⟩ =
          Except.error e →
      Messages.SummarizeWithSystemPrompt client model sys msgs =
        ("", some ⟨msgs.length, e⟩)) ∧
    (∀ (E : Type) (client : CreateChatRequest → Except E CreateChatResponse)
        (model : String) (msgs : List Message),
      Messages.Summarize client model msgs =
        Messages.SummarizeWithSystemPrompt client model DefaultSummaryPrompt msgs) ∧
    (transcriptOf summMsgs = "user: Hi\nassistant: Yo\n") := by
  refine ⟨?_, ?_, ?_, fun E client model msgs => rfl, by decide⟩
  · intro msgs
    simpa using transcriptOf_foldl msgs ""
  · intro E client model sys msgs resp hcl
    unfold Messages.SummarizeWithSystemPrompt
    rw [hcl]
  · intro E client model sys msgs e hcl
    unfold Messages.SummarizeWithSystemPrompt
    rw [hcl]

/-- A concrete collaborator that always succeeds with a single choice. -/
def okClient : CreateChatRequest → Except Unit CreateChatResponse :=
  fun _ => Except.ok ⟨[⟨⟨"assistant", "SUMMARY"⟩⟩]⟩

/-- Witness for C8: the success branch at a concrete client and the
three-message collection. -/
theorem Summarize_spec_witness :
    (okClient ⟨"gpt-4", [⟨ChatRoleSystem, "sys"⟩, ⟨ChatRoleUser, transcriptOf summMsgs⟩]⟩ =
      Except.ok ⟨[⟨⟨"assistant", "SUMMARY"⟩⟩]⟩) ∧
    Messages.SummarizeWithSystemPrompt okClient "gpt-4" "sys" summMsgs =
      ((CreateChatResponse.Choices ⟨[⟨⟨"assistant", "SUMMARY"⟩⟩]⟩ |>.getD 0 default).Message.Content,
        none) :=
  ⟨rfl, Summarize_spec.2.1 Unit okClient "gpt-4" "sys" summMsgs ⟨[⟨⟨"assistant", "SUMMARY"⟩⟩]⟩ rfl⟩

end ChatGraphSpec
